import Mathlib

/-!
# Verification of the pse-stocks-etl incremental synchronization engine

Shallow embedding of the repository's core synchronization logic:

* `src/etl/postgres_sync.py` — `DailyStockPriceDataset.sync_db` / `sync_symbol`,
  `_insert_price_data_to_db`, `_get_latest_dates`, `PSECompaniesDataset.sync_db`,
  `sync`, `backfill`;
* `src/utils/pse_edge.py` — `get_stock_data` (windowed fetch plus in-client
  row-number-over-date deduplication), `UnknownSymbolException`;
* `src/utils/multithreading.py` — `parallel_execute` (queue drain, exception capture,
  aggregate raise), embedded with the sequential (`num_threads = 1`, the default
  `concurrency`) schedule;
* `src/etl/deltalake_sync.py` — the stage-then-merge control flow of
  `DailyStockPriceDataset.sync_table` (which steps run when the merge phase raises).

Conventions of the embedding:

* calendar dates are integers counting days since 1970-01-01, so
  `datetime(1970,1,1).date()` is `0`, `timedelta(days = k)` is `+ k`, and
  `(datetime.utcnow() + timedelta(hours=8)).date()` is passed in as the
  integer parameter `today_src`;
* prices and timestamps are integers (their only role in the verified logic is
  equality and order comparison);
* the remote PSE Edge service is an oracle `history : String → Option (List ChartRow)`:
  `none` models the `UnknownSymbolException` path of `get_company_info`, and a
  window request returns the rows of the fixed series whose date lies in the window;
* SQL tables are lists of rows; `INSERT ... ON CONFLICT (key) DO UPDATE SET <all
  columns>` is an in-place replace on key match, append otherwise;
* the worker pool is embedded with its sequential schedule (one thread draining
  the queue in order), which is the default `concurrency=1` configuration.
-/

set_option autoImplicit false

namespace PseEtl

/-- A row of `pse.daily_stock_price` (and of the price DataFrames): natural key
`(symbol, date)`, payload `open/high/low/close` and the provenance timestamp
`extracted_at`. -/
structure PriceRow where
  symbol : String
  date : Int
  open_ : Int
  high : Int
  low : Int
  close : Int
  extracted_at : Int
  deriving DecidableEq, Repr

/-- Model of `datetime(1970,1,1).date()`, the epoch floor used by `sync_symbol` for symbols
absent from the freshness map. -/
def epochDate : Int := 0

/-- The pandas `groupby(['date','symbol'])` key of a price row. -/
def priceKey (r : PriceRow) : Int × String := (r.date, r.symbol)

/-- One `ON CONFLICT (symbol,date) DO UPDATE SET <every column>` upsert of a single
value tuple (postgres_sync.py lines 143-157): on key match every attribute of the
stored row is replaced by the new row, otherwise the new row is appended. -/
def upsert_price_row (db : List PriceRow) (r : PriceRow) : List PriceRow :=
  if db.any (fun x => decide (priceKey x = priceKey r)) then
    db.map (fun x => if priceKey x = priceKey r then r else x)
  else
    db ++ [r]

/-- Model of `DailyStockPriceDataset._insert_price_data_to_db`: upserts the rows of the
DataFrame into the table one value tuple after the other, in DataFrame order.
(The `batch_size` chunking only splits the tuples over several statements and has
no effect on the resulting table state, so it is not represented.) -/
def insert_price_data_to_db (db : List PriceRow) (df : List PriceRow) : List PriceRow :=
  df.foldl upsert_price_row db

/-- Maximum of a list of integers, `none` on the empty list (the SQL
`max(date) ... GROUP BY symbol` aggregate produces a row only for symbols that
have price rows). -/
def listMax : List Int → Option Int
  | [] => none
  | a :: l =>
    match listMax l with
    | none => some a
    | some b => some (max a b)

/-- Model of `DailyStockPriceDataset._get_latest_dates` restricted to one symbol:
`SELECT symbol, max(date) FROM pse.daily_stock_price GROUP BY symbol` read as
a dictionary, so a symbol with no rows is absent (`none`). -/
def latest_date (db : List PriceRow) (s : String) : Option Int :=
  listMax ((db.filter (fun r => decide (r.symbol = s))).map (fun r => r.date))

/-- A row of the raw `chartData` payload of the PSE Edge stock-data endpoint,
after column renaming: one candle per entry, possibly with duplicate dates. -/
structure ChartRow where
  date : Int
  open_ : Int
  high : Int
  low : Int
  close : Int
  deriving DecidableEq, Repr

/-- The client-side deduplication of `get_stock_data` (pse_edge.py lines 267-269):
`rank(method='ordinal').over('date') == 1` keeps, for every date, the first row
carrying that date, preserving the original row order. `seen` accumulates the
dates already kept. -/
def keepFirstByDate (seen : List Int) : List ChartRow → List ChartRow
  | [] => []
  | r :: rs =>
    if r.date ∈ seen then keepFirstByDate seen rs
    else r :: keepFirstByDate (r.date :: seen) rs

/-- The column construction of `get_stock_data` (pse_edge.py lines 261-265):
tag every chart row with the requested symbol and the response timestamp. -/
def chartToPrice (symbol : String) (extracted_ts : Int) (r : ChartRow) : PriceRow :=
  { symbol := symbol, date := r.date, open_ := r.open_, high := r.high,
    low := r.low, close := r.close, extracted_at := extracted_ts }

/-- Model of `get_stock_data(symbol, start_date, end_date)` (pse_edge.py): an unknown symbol
raises `UnknownSymbolException` (the `error` branch); otherwise the service returns
the chart rows of the symbol's series whose date lies in the inclusive window, the
client keeps the first row per date and tags symbol and extraction timestamp. -/
def get_stock_data (history : String → Option (List ChartRow)) (extracted_ts : Int)
    (symbol : String) (start_date end_date : Int) : Except String (List PriceRow) :=
  match history symbol with
  | none => Except.error symbol
  | some rows =>
    let chart_data := rows.filter (fun r => decide (start_date ≤ r.date) && decide (r.date ≤ end_date))
    Except.ok ((keepFirstByDate [] chart_data).map (chartToPrice symbol extracted_ts))

/-- Lexicographic order on pandas group keys `(date, symbol)`. -/
def keyLe (k1 k2 : Int × String) : Prop :=
  k1.1 < k2.1 ∨ (k1.1 = k2.1 ∧ k1.2 ≤ k2.2)

instance keyLe.decidableRel : DecidableRel keyLe := fun k1 k2 => by
  unfold keyLe; infer_instance

/-- The group keys of `df.groupby(['date','symbol'])`: the distinct
`(date, symbol)` pairs of the frame, in sorted key order (pandas `sort=True`
default). -/
def groupKeys (rows : List PriceRow) : List (Int × String) :=
  List.insertionSort keyLe (rows.map priceKey).dedup

/-- Pandas `['close'].idxmax()` followed by `.loc`, restricted to one group: the
first row of the group whose close equals the group's maximum close. -/
def idxmaxRow (g : List PriceRow) : Option PriceRow :=
  match listMax (g.map (fun r => r.close)) with
  | none => none
  | some m => g.find? (fun r => decide (r.close = m))

/-- The scheduler-side deduplication
`price_df.loc[price_df.groupby(['date','symbol'])['close'].idxmax()]`
(postgres_sync.py line 215): for every distinct `(date, symbol)` key, in sorted
key order, keep the first row of the group attaining the maximum close. -/
def dedup_group_max_close (rows : List PriceRow) : List PriceRow :=
  (groupKeys rows).filterMap
    (fun k => idxmaxRow (rows.filter (fun r => decide (priceKey r = k))))

/-- Per-symbol window computation of `sync_symbol` (postgres_sync.py lines 199-202):
`current_end_date + timedelta(days = 1 - lookback_days)` to
`today_src - timedelta(days = freshness_days)`, where `current_end_date` falls back
to the epoch floor for symbols absent from the freshness map and `today_src` is
`(datetime.utcnow() + timedelta(hours=8)).date()`. -/
def compute_window (latest : Option Int) (lookback_days freshness_days today_src : Int) :
    Int × Int :=
  let current_end_date := latest.getD epochDate
  (current_end_date + (1 - lookback_days), today_src - freshness_days)

/-- The merge half of `sync_symbol` (postgres_sync.py lines 214-222): deduplicate
the fetched frame by `(date, symbol)` keeping the max-close representative, then
insert it if it is non-empty. -/
def merge_step (db : List PriceRow) (price_df : List PriceRow) : List PriceRow :=
  let deduped := dedup_group_max_close price_df
  if 0 < deduped.length then insert_price_data_to_db db deduped else db

/-- Observable outcome of one `sync_symbol` call: the table state it leaves behind,
the window passed to `get_stock_data` (`none` when the skip path issued no fetch),
and whether the `UnknownSymbolException` warning path ran. -/
structure SymbolEffect where
  db : List PriceRow
  fetched : Option (Int × Int)
  warned : Bool
  deriving DecidableEq, Repr

/-- Model of `sync_symbol` (postgres_sync.py lines 196-225): compute the target window;
skip without fetching when `lookback_days == 0` and the symbol's latest stored
date already equals the target end; otherwise fetch the window, catch
`UnknownSymbolException` as a logged warning, and merge any fetched rows. -/
def sync_symbol (history : String → Option (List ChartRow)) (extracted_ts : Int)
    (latest_dates : String → Option Int) (today_src : Int)
    (lookback_days freshness_days : Int) (db : List PriceRow) (symbol : String) :
    SymbolEffect :=
  let current_end_date := (latest_dates symbol).getD epochDate
  let w := compute_window (latest_dates symbol) lookback_days freshness_days today_src
  let target_start_date := w.1
  let target_end_date := w.2
  if lookback_days = 0 ∧ current_end_date = target_end_date then
    { db := db, fetched := none, warned := false }
  else
    match get_stock_data history extracted_ts symbol target_start_date target_end_date with
    | Except.error _ =>
      { db := db, fetched := some (target_start_date, target_end_date), warned := true }
    | Except.ok price_df =>
      { db := merge_step db price_df,
        fetched := some (target_start_date, target_end_date), warned := false }

/-- One queue step of `DailyStockPriceDataset.sync_db`: run `sync_symbol` for one
symbol against the current table, and record the symbol in the warning list when
its fetch hit the unknown-symbol path. -/
def sync_db_step (history : String → Option (List ChartRow)) (extracted_ts : Int)
    (latest_dates : String → Option Int) (today_src : Int)
    (lookback_days freshness_days : Int) (st : List PriceRow × List String)
    (s : String) : List PriceRow × List String :=
  let eff := sync_symbol history extracted_ts latest_dates today_src
    lookback_days freshness_days st.1 s
  (eff.db, if eff.warned then st.2 ++ [s] else st.2)

/-- Model of `DailyStockPriceDataset.sync_db` (postgres_sync.py lines 175-235) with the
sequential (`num_threads = 1`) schedule of `parallel_execute`: the freshness map is
computed once from the starting table state, then the symbol queue is drained in
order, each symbol running `sync_symbol` against the current table; returns the
final table and the list of symbols whose fetch hit the unknown-symbol warning. -/
def sync_db_prices (history : String → Option (List ChartRow)) (extracted_ts : Int)
    (today_src : Int) (symbols : List String) (lookback_days freshness_days : Int)
    (db0 : List PriceRow) : List PriceRow × List String :=
  symbols.foldl
    (sync_db_step history extracted_ts (fun s => latest_date db0 s) today_src
      lookback_days freshness_days)
    (db0, [])

/-- The price half of `sync()` (postgres_sync.py lines 238-249):
`sync_db(num_threads=concurrency, lookback_days=0)` with the default
`freshness_days = 1`. -/
def sync_prices_run (history : String → Option (List ChartRow)) (extracted_ts : Int)
    (today_src : Int) (symbols : List String) (db0 : List PriceRow) :
    List PriceRow × List String :=
  sync_db_prices history extracted_ts today_src symbols 0 1 db0

/-- The price half of `backfill()` (postgres_sync.py lines 252-264): the same
`sync_db` with `lookback_days = 365*100` and the default `freshness_days = 1`. -/
def backfill_prices_run (history : String → Option (List ChartRow)) (extracted_ts : Int)
    (today_src : Int) (symbols : List String) (db0 : List PriceRow) :
    List PriceRow × List String :=
  sync_db_prices history extracted_ts today_src symbols (365 * 100) 1 db0

/-- The worker loop of `parallel_execute` (multithreading.py lines 34-42) draining
the queue in order with the sequential schedule: `func a = some e` models
`func(arg)` raising exception `e`, which is appended to `caught_exceptions`;
returns the arguments processed (in order) and the exceptions caught (in order). -/
def run_queue {α ε : Type} (func : α → Option ε) : List α → List α × List ε
  | [] => ([], [])
  | a :: rest =>
    let res := func a
    let done := run_queue func rest
    (a :: done.1, match res with | some e => e :: done.2 | none => done.2)

/-- Model of `parallel_execute` (multithreading.py lines 9-65): drain the whole queue,
collecting exceptions; afterwards raise the first caught exception if any occurred,
else return `True`. The result triple is (arguments attempted, exceptions caught,
final outcome). -/
def parallel_execute {α ε : Type} (func : α → Option ε) (args : List α) :
    List α × List ε × Except ε Bool :=
  match run_queue func args with
  | (attempted, []) => (attempted, [], Except.ok true)
  | (attempted, e :: caught) => (attempted, e :: caught, Except.error e)

/-- A row of `pse.company`: natural key `symbol`, descriptive attributes, and the
provenance timestamp. -/
structure CompanyRow where
  symbol : String
  company_name : String
  sector : String
  subsector : String
  listing_date : Int
  extracted_at : Int
  deriving DecidableEq, Repr

/-- One `ON CONFLICT (symbol) DO UPDATE SET <every column>` upsert of a company
row (postgres_sync.py lines 56-69). -/
def upsert_company_row (db : List CompanyRow) (r : CompanyRow) : List CompanyRow :=
  if db.any (fun x => decide (x.symbol = r.symbol)) then
    db.map (fun x => if x.symbol = r.symbol then r else x)
  else
    db ++ [r]

/-- The insert loop of `PSECompaniesDataset.sync_db` (postgres_sync.py lines 71-84):
every source row is upserted, in source order. (Batching again has no effect on the
final table state.) -/
def companies_sync_db (db : List CompanyRow) (source_data : List CompanyRow) :
    List CompanyRow :=
  source_data.foldl upsert_company_row db

/-- Model of `PSECompaniesDataset._refresh_metadata` (postgres_sync.py lines 21-24):
`SELECT symbol FROM pse.company ORDER BY symbol` as a list. -/
def select_symbols_sorted (db : List CompanyRow) : List String :=
  List.insertionSort (fun a b : String => a ≤ b) (db.map (fun r => r.symbol))

/-- The entity registry sync (`PSECompaniesDataset.sync_db` followed by the
`_refresh_metadata` it ends with): upsert the full source entity list, then read
back the ordered symbol list that downstream components receive. -/
def sync_registry (db : List CompanyRow) (source_data : List CompanyRow) :
    List CompanyRow × List String :=
  let db1 := companies_sync_db db source_data
  (db1, select_symbols_sorted db1)

/-- Exceptions that the `try` block of `DailyStockPriceDataset.sync_table`
(deltalake_sync.py lines 227-261) can raise: `polars.ComputeError` (raised by
`pl.read_csv` when the staging directory holds no CSV, and the only class the
`except` clause catches) versus any other exception (e.g. a Delta merge failure). -/
inductive TryExc where
  | computeError : TryExc
  | otherError : TryExc
  deriving DecidableEq, Repr

/-- What one run of the stage-then-merge tail of `sync_table` did. -/
structure MergePhaseTrace where
  merged : Bool
  vacuumed : Bool
  cleanup_ran : Bool
  raised : Option TryExc
  deriving DecidableEq, Repr

/-- The `try` block of `sync_table` (deltalake_sync.py lines 227-257): read the
staged CSVs, merge them into the Delta table, refresh metadata, vacuum; the first
step that raises aborts the rest of the block. Returns (merge ran to completion,
vacuum ran to completion, exception escaping the block). -/
def sync_table_try_block (read_exc merge_exc vacuum_exc : Option TryExc) :
    Bool × Bool × Option TryExc :=
  match read_exc with
  | some e => (false, false, some e)
  | none =>
    match merge_exc with
    | some e => (false, false, some e)
    | none =>
      match vacuum_exc with
      | some e => (true, false, some e)
      | none => (true, true, none)

/-- The stage-then-merge tail of `sync_table` (deltalake_sync.py lines 227-263):
the `try` block above, an `except pl.ComputeError` clause that logs and swallows,
and then — on the fall-through paths only — `delete_files(csv_files)` cleaning the
staging CSVs. An exception other than `polars.ComputeError` escapes the statement
before the cleanup line is reached. -/
def sync_table_merge_phase (read_exc merge_exc vacuum_exc : Option TryExc) :
    MergePhaseTrace :=
  let t := sync_table_try_block read_exc merge_exc vacuum_exc
  match t.2.2 with
  | none => { merged := t.1, vacuumed := t.2.1, cleanup_ran := true, raised := none }
  | some TryExc.computeError =>
    { merged := t.1, vacuumed := t.2.1, cleanup_ran := true, raised := none }
  | some TryExc.otherError =>
    { merged := t.1, vacuumed := t.2.1, cleanup_ran := false,
      raised := some TryExc.otherError }

/-! ## Derived state observations -/

/-- The row a table stores under natural key `k`, if any. -/
def lookupKey (db : List PriceRow) (k : Int × String) : Option PriceRow :=
  db.find? (fun r => decide (priceKey r = k))

/-- How many rows a table stores under natural key `k`. -/
def countKey (db : List PriceRow) (k : Int × String) : Nat :=
  db.countP (fun r => decide (priceKey r = k))

/-- The sink invariant: at most one row per `(date, symbol)` natural key. -/
def uniqueKeys (db : List PriceRow) : Prop :=
  (db.map priceKey).Nodup

/-! ## Basic lemmas: `listMax` -/

theorem listMax_eq_none {l : List Int} : listMax l = none ↔ l = [] := by
  cases l with
  | nil => simp [listMax]
  | cons a t => simp only [listMax]; cases listMax t <;> simp

theorem listMax_mem {l : List Int} {m : Int} (h : listMax l = some m) : m ∈ l := by
  induction l generalizing m with
  | nil => simp [listMax] at h
  | cons a t ih =>
    simp only [listMax] at h
    cases ht : listMax t with
    | none => rw [ht] at h; simp at h; simp [h]
    | some b =>
      rw [ht] at h
      simp only [Option.some.injEq] at h
      subst h
      rcases max_choice a b with hm | hm
      · simp [hm]
      · rw [hm]; exact List.mem_cons_of_mem _ (ih ht)

theorem le_listMax {l : List Int} {a m : Int} (ha : a ∈ l) (h : listMax l = some m) :
    a ≤ m := by
  induction l generalizing m with
  | nil => simp at ha
  | cons b t ih =>
    simp only [listMax] at h
    cases ht : listMax t with
    | none =>
      rw [ht] at h
      simp only [Option.some.injEq] at h
      rcases List.mem_cons.mp ha with rfl | hat
      · omega
      · exact absurd (listMax_eq_none.mp ht ▸ hat) (List.not_mem_nil a)
    | some c =>
      rw [ht] at h
      simp only [Option.some.injEq] at h
      rcases List.mem_cons.mp ha with rfl | hat
      · subst h; exact le_max_left _ _
      · exact le_trans (ih hat ht) (h ▸ le_max_right _ _)

theorem listMax_isSome {l : List Int} (h : l ≠ []) : (listMax l).isSome := by
  cases hm : listMax l with
  | none => exact absurd (listMax_eq_none.mp hm) h
  | some m => rfl

/-! ## Basic lemmas: keys, lookup and upsert -/

theorem mem_keys_iff {db : List PriceRow} {k : Int × String} :
    k ∈ db.map priceKey ↔ ∃ r ∈ db, priceKey r = k := by
  simp [List.mem_map, eq_comm]

theorem latest_date_eq_some_of_mem {db : List PriceRow} {s : String} {d : Int}
    (h : (d, s) ∈ db.map priceKey) :
    ∃ m, latest_date db s = some m ∧ d ≤ m := by
  rcases mem_keys_iff.mp h with ⟨r, hr, hk⟩
  have hsym : r.symbol = s := congrArg Prod.snd hk
  have hdat : r.date = d := congrArg Prod.fst hk
  have hmem : d ∈ (db.filter (fun r => decide (r.symbol = s))).map (fun r => r.date) := by
    refine List.mem_map.mpr ⟨r, List.mem_filter.mpr ⟨hr, by simp [hsym]⟩, hdat⟩
  have hne : (db.filter (fun r => decide (r.symbol = s))).map (fun r => r.date) ≠ [] :=
    List.ne_nil_of_mem hmem
  cases hm : latest_date db s with
  | none => exact absurd (listMax_eq_none.mp hm) hne
  | some m => exact ⟨m, rfl, le_listMax hmem hm⟩

theorem mem_of_latest_date_eq_some {db : List PriceRow} {s : String} {m : Int}
    (h : latest_date db s = some m) : (m, s) ∈ db.map priceKey := by
  have := listMax_mem h
  rcases List.mem_map.mp this with ⟨r, hr, hd⟩
  have hrs := List.mem_filter.mp hr
  refine mem_keys_iff.mpr ⟨r, hrs.1, ?_⟩
  have : r.symbol = s := by simpa using hrs.2
  simp [priceKey, hd, this]

theorem map_key_upsert (db : List PriceRow) (r : PriceRow) :
    (upsert_price_row db r).map priceKey =
      if db.any (fun x => decide (priceKey x = priceKey r)) then db.map priceKey
      else db.map priceKey ++ [priceKey r] := by
  unfold upsert_price_row
  split
  · next h =>
    rw [List.map_map]
    refine List.map_congr_left (fun x _ => ?_)
    simp only [Function.comp_apply]
    split
    · next hx => simp [hx]
    · rfl
  · simp

theorem mem_keys_upsert {db : List PriceRow} {r : PriceRow} {k : Int × String} :
    k ∈ (upsert_price_row db r).map priceKey ↔
      k ∈ db.map priceKey ∨ k = priceKey r := by
  rw [map_key_upsert]
  split
  · next h =>
    simp only [List.any_eq_true, decide_eq_true_eq] at h
    rcases h with ⟨x, hx, hxk⟩
    constructor
    · exact fun h1 => Or.inl h1
    · rintro (h1 | rfl)
      · exact h1
      · exact hxk ▸ List.mem_map_of_mem priceKey hx
  · simp

theorem uniqueKeys_upsert {db : List PriceRow} (h : uniqueKeys db) (r : PriceRow) :
    uniqueKeys (upsert_price_row db r) := by
  unfold uniqueKeys
  rw [map_key_upsert]
  split
  · exact h
  · next hany =>
    simp only [List.any_eq_true, decide_eq_true_eq, not_exists] at hany
    have hnot : priceKey r ∉ db.map priceKey := by
      intro hmem
      rcases List.mem_map.mp hmem with ⟨x, hx, hk⟩
      exact (hany x) ⟨hx, hk⟩
    refine List.Nodup.append h (List.nodup_singleton _) ?_
    intro a ha hb
    simp only [List.mem_singleton] at hb
    exact hnot (hb ▸ ha)

theorem find?_map_subst {t : List PriceRow} {r : PriceRow}
    (h : ∃ x ∈ t, priceKey x = priceKey r) :
    (t.map (fun x => if priceKey x = priceKey r then r else x)).find?
      (fun x => decide (priceKey x = priceKey r)) = some r := by
  induction t with
  | nil => simp at h
  | cons x t ih =>
    by_cases hx : priceKey x = priceKey r
    · simp [List.find?_cons_of_pos, hx]
    · have ht : ∃ y ∈ t, priceKey y = priceKey r := by
        rcases h with ⟨y, hy, hyk⟩
        rcases List.mem_cons.mp hy with rfl | hyt
        · exact absurd hyk hx
        · exact ⟨y, hyt, hyk⟩
      simpa [if_neg hx, List.find?_cons_of_neg, hx] using ih ht

theorem find?_map_subst_frame {t : List PriceRow} {r : PriceRow} {k : Int × String}
    (hk : priceKey r ≠ k) :
    (t.map (fun x => if priceKey x = priceKey r then r else x)).find?
      (fun x => decide (priceKey x = k)) = t.find? (fun x => decide (priceKey x = k)) := by
  induction t with
  | nil => simp
  | cons x t ih =>
    by_cases hx : priceKey x = priceKey r
    · have h1 : ¬ priceKey x = k := fun hc => hk (hx.symm.trans hc)
      simp only [List.map_cons, if_pos hx]
      rw [List.find?_cons_of_neg _ (by simpa using hk),
        List.find?_cons_of_neg _ (by simpa using h1)]
      exact ih
    · by_cases h2 : priceKey x = k
      · simp only [List.map_cons, if_neg hx]
        rw [List.find?_cons_of_pos _ (by simpa using h2),
          List.find?_cons_of_pos _ (by simpa using h2)]
      · simp only [List.map_cons, if_neg hx]
        rw [List.find?_cons_of_neg _ (by simpa using h2),
          List.find?_cons_of_neg _ (by simpa using h2)]
        exact ih

theorem find?_append_one {t : List PriceRow} {r : PriceRow}
    (h : ∀ x ∈ t, ¬ priceKey x = priceKey r) :
    (t ++ [r]).find? (fun x => decide (priceKey x = priceKey r)) = some r := by
  induction t with
  | nil => simp
  | cons x t ih =>
    have hx : ¬ priceKey x = priceKey r := h x (List.mem_cons_self _ _)
    simpa [List.find?_cons_of_neg, hx] using ih (fun y hy => h y (List.mem_cons_of_mem _ hy))

theorem find?_append_one_frame {t : List PriceRow} {r : PriceRow} {k : Int × String}
    (hk : priceKey r ≠ k) :
    (t ++ [r]).find? (fun x => decide (priceKey x = k)) =
      t.find? (fun x => decide (priceKey x = k)) := by
  induction t with
  | nil => simp [List.find?_cons_of_neg, hk]
  | cons x t ih =>
    by_cases h2 : priceKey x = k
    · simp [List.find?_cons_of_pos, h2]
    · simp [List.find?_cons_of_neg, h2, ih]

theorem lookup_upsert_self (db : List PriceRow) (r : PriceRow) :
    lookupKey (upsert_price_row db r) (priceKey r) = some r := by
  unfold upsert_price_row lookupKey
  split
  · next hany =>
    simp only [List.any_eq_true, decide_eq_true_eq] at hany
    exact find?_map_subst hany
  · next hany =>
    simp only [List.any_eq_true, decide_eq_true_eq, not_exists] at hany
    exact find?_append_one (fun x hx hc => hany x ⟨hx, hc⟩)

theorem lookup_upsert_frame {db : List PriceRow} {r : PriceRow} {k : Int × String}
    (hk : priceKey r ≠ k) :
    lookupKey (upsert_price_row db r) k = lookupKey db k := by
  unfold upsert_price_row lookupKey
  split
  · exact find?_map_subst_frame hk
  · exact find?_append_one_frame hk

/-! ## Lemmas: `insert_price_data_to_db` -/

theorem mem_keys_insert_all {df : List PriceRow} {db : List PriceRow} {k : Int × String} :
    k ∈ (insert_price_data_to_db db df).map priceKey ↔
      k ∈ db.map priceKey ∨ k ∈ df.map priceKey := by
  induction df generalizing db with
  | nil => simp [insert_price_data_to_db]
  | cons r t ih =>
    show k ∈ (insert_price_data_to_db (upsert_price_row db r) t).map priceKey ↔ _
    rw [ih, mem_keys_upsert]
    simp only [List.map_cons, List.mem_cons]
    tauto

theorem uniqueKeys_insert_all {df : List PriceRow} {db : List PriceRow}
    (h : uniqueKeys db) : uniqueKeys (insert_price_data_to_db db df) := by
  induction df generalizing db with
  | nil => exact h
  | cons r t ih => exact ih (uniqueKeys_upsert h r)

theorem lookup_insert_all_frame {df : List PriceRow} {db : List PriceRow} {k : Int × String}
    (h : ∀ r ∈ df, priceKey r ≠ k) :
    lookupKey (insert_price_data_to_db db df) k = lookupKey db k := by
  induction df generalizing db with
  | nil => rfl
  | cons r t ih =>
    show lookupKey (insert_price_data_to_db (upsert_price_row db r) t) k = _
    rw [ih (fun y hy => h y (List.mem_cons_of_mem _ hy)),
      lookup_upsert_frame (h r (List.mem_cons_self _ _))]

theorem lookup_insert_all_of_mem {df : List PriceRow} {db : List PriceRow} {r : PriceRow}
    (hnd : (df.map priceKey).Nodup) (hr : r ∈ df) :
    lookupKey (insert_price_data_to_db db df) (priceKey r) = some r := by
  induction df generalizing db with
  | nil => simp at hr
  | cons x t ih =>
    have hnd' : priceKey x ∉ t.map priceKey ∧ (t.map priceKey).Nodup := by
      have hh : ((x :: t).map priceKey).Nodup := hnd
      rw [List.map_cons, List.nodup_cons] at hh
      exact hh
    rcases List.mem_cons.mp hr with rfl | hrt
    · show lookupKey (insert_price_data_to_db (upsert_price_row db r) t) (priceKey r) = some r
      rw [lookup_insert_all_frame, lookup_upsert_self]
      intro y hy hc
      exact hnd'.1 (hc ▸ List.mem_map_of_mem priceKey hy)
    · exact ih hnd'.2 hrt

/-! ## Lemmas: `countKey` -/

theorem countKey_eq_zero {db : List PriceRow} {k : Int × String}
    (h : ∀ r ∈ db, priceKey r ≠ k) : countKey db k = 0 := by
  unfold countKey
  refine List.countP_eq_zero.mpr (fun r hr => ?_)
  simpa using h r hr

theorem countKey_eq_one {db : List PriceRow} (h : uniqueKeys db) {k : Int × String}
    (hk : k ∈ db.map priceKey) : countKey db k = 1 := by
  induction db with
  | nil => simp at hk
  | cons r t ih =>
    have hnd : priceKey r ∉ t.map priceKey ∧ (t.map priceKey).Nodup := by
      have hh : ((r :: t).map priceKey).Nodup := h
      rw [List.map_cons, List.nodup_cons] at hh
      exact hh
    by_cases hr : priceKey r = k
    · have ht0 : countKey t k = 0 :=
        countKey_eq_zero (fun y hy hc => hnd.1 (hr ▸ hc ▸ List.mem_map_of_mem priceKey hy))
      unfold countKey at ht0 ⊢
      rw [List.countP_cons]
      simp [hr, ht0]
    · have hkt : k ∈ t.map priceKey := by
        rw [List.map_cons] at hk
        rcases List.mem_cons.mp hk with hc | hc
        · exact absurd hc.symm hr
        · exact hc
      have := ih hnd.2 hkt
      unfold countKey at this ⊢
      rw [List.countP_cons]
      simp [hr, this]

/-! ## Lemmas: `keepFirstByDate` (the client-side dedup of `get_stock_data`) -/

theorem date_mem_keepFirst {l : List ChartRow} {seen : List Int} {d : Int} :
    d ∈ (keepFirstByDate seen l).map (fun r => r.date) ↔
      d ∉ seen ∧ d ∈ l.map (fun r => r.date) := by
  induction l generalizing seen with
  | nil => simp [keepFirstByDate]
  | cons r t ih =>
    simp only [keepFirstByDate]
    split
    · next hr =>
      rw [ih]
      simp only [List.map_cons, List.mem_cons]
      constructor
      · rintro ⟨h1, h2⟩; exact ⟨h1, Or.inr h2⟩
      · rintro ⟨h1, h2 | h2⟩
        · exact absurd (h2 ▸ hr) h1
        · exact ⟨h1, h2⟩
    · next hr =>
      simp only [List.map_cons, List.mem_cons]
      rw [ih]
      constructor
      · rintro (rfl | ⟨h1, h2⟩)
        · exact ⟨hr, Or.inl rfl⟩
        · simp only [List.mem_cons, not_or] at h1
          exact ⟨h1.2, Or.inr h2⟩
      · rintro ⟨h1, rfl | h2⟩
        · exact Or.inl rfl
        · by_cases hd : d = r.date
          · exact Or.inl hd
          · exact Or.inr ⟨by simp [List.mem_cons, hd, h1], h2⟩

theorem nodup_dates_keepFirst {l : List ChartRow} {seen : List Int} :
    ((keepFirstByDate seen l).map (fun r => r.date)).Nodup := by
  induction l generalizing seen with
  | nil => simp [keepFirstByDate]
  | cons r t ih =>
    simp only [keepFirstByDate]
    split
    · exact ih
    · simp only [List.map_cons, List.nodup_cons]
      refine ⟨fun hmem => ?_, ih⟩
      have := (date_mem_keepFirst.mp hmem).1
      simp at this

theorem keepFirst_subset {l : List ChartRow} {seen : List Int} {x : ChartRow}
    (h : x ∈ keepFirstByDate seen l) : x ∈ l := by
  induction l generalizing seen with
  | nil => simp [keepFirstByDate] at h
  | cons r t ih =>
    simp only [keepFirstByDate] at h
    split at h
    · exact List.mem_cons_of_mem _ (ih h)
    · rcases List.mem_cons.mp h with rfl | hx
      · exact List.mem_cons_self _ _
      · exact List.mem_cons_of_mem _ (ih hx)

theorem keepFirst_find? {l : List ChartRow} {seen : List Int} {x : ChartRow}
    (h : x ∈ keepFirstByDate seen l) :
    l.find? (fun y => decide (y.date = x.date)) = some x := by
  induction l generalizing seen with
  | nil => simp [keepFirstByDate] at h
  | cons r t ih =>
    have hxs : x.date ∉ seen := by
      by_cases hmem : x.date ∈ (keepFirstByDate seen (r :: t)).map (fun r => r.date)
      · exact (date_mem_keepFirst.mp hmem).1
      · exact absurd (List.mem_map_of_mem _ h) hmem
    simp only [keepFirstByDate] at h
    split at h
    · next hr =>
      have hne : ¬ r.date = x.date := fun hc => hxs (hc ▸ hr)
      rw [List.find?_cons_of_neg _ (by simpa using hne)]
      exact ih h
    · next hr =>
      rcases List.mem_cons.mp h with rfl | hx
      · rw [List.find?_cons_of_pos _ (by simp)]
      · have hxd : x.date ∉ r.date :: seen := by
          have hmem := List.mem_map_of_mem (fun r => r.date) hx
          exact (date_mem_keepFirst.mp hmem).1
        have hne : ¬ r.date = x.date := fun hc => hxd (by simp [hc])
        rw [List.find?_cons_of_neg _ (by simpa using hne)]
        exact ih hx

/-! ## Lemmas: `dedup_group_max_close` (the scheduler-side dedup) -/

theorem mem_groupKeys {rows : List PriceRow} {k : Int × String} :
    k ∈ groupKeys rows ↔ k ∈ rows.map priceKey := by
  unfold groupKeys
  rw [List.mem_insertionSort, List.mem_dedup]

theorem nodup_groupKeys (rows : List PriceRow) : (groupKeys rows).Nodup :=
  ((List.perm_insertionSort _ _).nodup_iff).mpr (List.nodup_dedup _)

theorem idxmaxRow_of_ne_nil {g : List PriceRow} (h : g ≠ []) :
    ∃ r, idxmaxRow g = some r ∧ r ∈ g := by
  unfold idxmaxRow
  have hne : g.map (fun r => r.close) ≠ [] := by
    simpa [List.map_eq_nil_iff] using h
  cases hm : listMax (g.map fun r => r.close) with
  | none => exact absurd (listMax_eq_none.mp hm) hne
  | some m =>
    rcases List.mem_map.mp (listMax_mem hm) with ⟨r, hr, hc⟩
    cases hf : g.find? (fun x => decide (x.close = m)) with
    | none =>
      have := List.find?_eq_none.mp hf r hr
      simp [hc] at this
    | some x =>
      refine ⟨x, ?_, List.mem_of_find?_eq_some hf⟩
      show g.find? (fun r => decide (r.close = m)) = some x
      exact hf

theorem filterMap_map_eq_self {κ ρ : Type} {l : List κ} {f : κ → Option ρ} {g : ρ → κ}
    (h : ∀ k ∈ l, ∃ r, f k = some r ∧ g r = k) : (l.filterMap f).map g = l := by
  induction l with
  | nil => rfl
  | cons k t ih =>
    rcases h k (List.mem_cons_self _ _) with ⟨r, hf, hg⟩
    simp only [List.filterMap_cons, hf, List.map_cons, hg]
    rw [ih (fun y hy => h y (List.mem_cons_of_mem _ hy))]

theorem map_key_dedup_group (rows : List PriceRow) :
    (dedup_group_max_close rows).map priceKey = groupKeys rows := by
  unfold dedup_group_max_close
  apply filterMap_map_eq_self
  intro k hk
  rcases mem_keys_iff.mp (mem_groupKeys.mp hk) with ⟨x, hx, hxk⟩
  have hne : rows.filter (fun r => decide (priceKey r = k)) ≠ [] :=
    List.ne_nil_of_mem (List.mem_filter.mpr ⟨hx, by simp [hxk]⟩)
  rcases idxmaxRow_of_ne_nil hne with ⟨r, hr, hrg⟩
  exact ⟨r, hr, by simpa using (List.mem_filter.mp hrg).2⟩

theorem uniqueKeys_dedup_group (rows : List PriceRow) :
    uniqueKeys (dedup_group_max_close rows) := by
  unfold uniqueKeys
  rw [map_key_dedup_group]
  exact nodup_groupKeys rows

theorem mem_keys_dedup_group {rows : List PriceRow} {k : Int × String} :
    k ∈ (dedup_group_max_close rows).map priceKey ↔ k ∈ rows.map priceKey := by
  rw [map_key_dedup_group]
  exact mem_groupKeys

theorem dedup_group_subset {rows : List PriceRow} {r : PriceRow}
    (h : r ∈ dedup_group_max_close rows) : r ∈ rows := by
  unfold dedup_group_max_close at h
  rcases List.mem_filterMap.mp h with ⟨k, _, hf⟩
  unfold idxmaxRow at hf
  cases hm : listMax ((rows.filter (fun r => decide (priceKey r = k))).map fun r => r.close) with
  | none => rw [hm] at hf; exact absurd hf (by simp)
  | some m =>
    rw [hm] at hf
    exact (List.mem_filter.mp (List.mem_of_find?_eq_some hf)).1

theorem filter_key_of_unique {rows : List PriceRow} (h : uniqueKeys rows) {x : PriceRow}
    (hx : x ∈ rows) :
    rows.filter (fun r => decide (priceKey r = priceKey x)) = [x] := by
  induction rows with
  | nil => simp at hx
  | cons y t ih =>
    have hnd : priceKey y ∉ t.map priceKey ∧ (t.map priceKey).Nodup := by
      have hh : ((y :: t).map priceKey).Nodup := h
      rw [List.map_cons, List.nodup_cons] at hh
      exact hh
    rcases List.mem_cons.mp hx with rfl | hxt
    · rw [List.filter_cons_of_pos (by simp)]
      have hnil : t.filter (fun r => decide (priceKey r = priceKey x)) = [] := by
        refine List.filter_eq_nil_iff.mpr (fun y hy => ?_)
        simp only [decide_eq_true_eq]
        exact fun hc => hnd.1 (hc ▸ List.mem_map_of_mem priceKey hy)
      rw [hnil]
    · have hy : ¬ priceKey y = priceKey x :=
        fun hc => hnd.1 (hc ▸ List.mem_map_of_mem priceKey hxt)
      rw [List.filter_cons_of_neg (by simpa using hy)]
      exact ih hnd.2 hxt

theorem mem_dedup_group_of_unique {rows : List PriceRow} (h : uniqueKeys rows)
    {x : PriceRow} (hx : x ∈ rows) : x ∈ dedup_group_max_close rows := by
  unfold dedup_group_max_close
  refine List.mem_filterMap.mpr ⟨priceKey x,
    mem_groupKeys.mpr (List.mem_map_of_mem _ hx), ?_⟩
  rw [filter_key_of_unique h hx]
  unfold idxmaxRow
  simp [listMax]

theorem dedup_group_perm {rows : List PriceRow} (h : uniqueKeys rows) :
    List.Perm (dedup_group_max_close rows) rows := by
  refine (List.perm_ext_iff_of_nodup ?_ ?_).mpr ?_
  · exact List.Nodup.of_map priceKey (uniqueKeys_dedup_group rows)
  · exact List.Nodup.of_map priceKey h
  · exact fun a => ⟨dedup_group_subset, mem_dedup_group_of_unique h⟩

theorem dedup_group_nil : dedup_group_max_close [] = [] := by
  unfold dedup_group_max_close groupKeys
  simp

theorem dedup_group_lookup {rows : List PriceRow} {k : Int × String}
    (hk : k ∈ rows.map priceKey) :
    ∃ r, idxmaxRow (rows.filter (fun x => decide (priceKey x = k))) = some r ∧
      priceKey r = k ∧ r ∈ dedup_group_max_close rows := by
  rcases mem_keys_iff.mp hk with ⟨x, hx, hxk⟩
  have hne : rows.filter (fun x => decide (priceKey x = k)) ≠ [] :=
    List.ne_nil_of_mem (List.mem_filter.mpr ⟨hx, by simp [hxk]⟩)
  rcases idxmaxRow_of_ne_nil hne with ⟨r, hr, hrg⟩
  have hkey : priceKey r = k := by simpa using (List.mem_filter.mp hrg).2
  exact ⟨r, hr, hkey, List.mem_filterMap.mpr ⟨k, mem_groupKeys.mpr hk, hr⟩⟩

/-! ## Claim theorems -/

/-- C1: for every symbol, with `latest` the freshness map's value (or the
1970-01-01 epoch floor when absent), the computed window is
`start = latest + 1 - lookback_days`, `end = today_at_utc8 - freshness_days`;
when the skip condition does not hold the fetch is issued with exactly this
window, and when `lookback_days = 0` and `latest = end` no fetch is issued and
the table is untouched. -/
theorem c1_window_computation_and_skip
    (history : String → Option (List ChartRow)) (extracted_ts : Int)
    (latest_dates : String → Option Int) (today_src : Int)
    (lookback_days freshness_days : Int) (db : List PriceRow) (symbol : String) :
    (compute_window (latest_dates symbol) lookback_days freshness_days today_src =
      ((latest_dates symbol).getD epochDate + 1 - lookback_days,
        today_src - freshness_days)) ∧
    (¬ (lookback_days = 0 ∧
          (latest_dates symbol).getD epochDate = today_src - freshness_days) →
      (sync_symbol history extracted_ts latest_dates today_src lookback_days
          freshness_days db symbol).fetched =
        some ((latest_dates symbol).getD epochDate + 1 - lookback_days,
          today_src - freshness_days)) ∧
    (lookback_days = 0 →
      (latest_dates symbol).getD epochDate = today_src - freshness_days →
      (sync_symbol history extracted_ts latest_dates today_src lookback_days
          freshness_days db symbol).fetched = none ∧
      (sync_symbol history extracted_ts latest_dates today_src lookback_days
          freshness_days db symbol).db = db) := by
  refine ⟨?_, ?_, ?_⟩
  · show ((latest_dates symbol).getD epochDate + (1 - lookback_days),
      today_src - freshness_days) = _
    simp only [Prod.mk.injEq]
    refine ⟨by omega, ?_⟩
    try trivial
    try rfl
  · intro h
    simp only [sync_symbol, compute_window]
    rw [if_neg h]
    cases hgs : get_stock_data history extracted_ts symbol
        ((latest_dates symbol).getD epochDate + (1 - lookback_days))
        (today_src - freshness_days) with
    | error e =>
      simp only [Option.some.injEq, Prod.mk.injEq]
      refine ⟨by omega, ?_⟩
      try trivial
      try rfl
    | ok pdf =>
      simp only [Option.some.injEq, Prod.mk.injEq]
      refine ⟨by omega, ?_⟩
      try trivial
      try rfl
  · intro h1 h2
    simp only [sync_symbol, compute_window]
    rw [if_pos ⟨h1, h2⟩]
    exact ⟨rfl, rfl⟩

/-- C1 witness: `latest = 2024-01-10` (day 19732), `freshness_days = 1`,
`lookback_days = 0`, today at UTC+8 = 2024-01-12 (day 19734): the fetched window
is `start = end = 2024-01-11` (day 19733); and with `latest = 19733 = end` the
symbol is skipped with no fetch. -/
theorem c1_window_witness :
    (sync_symbol (fun _ => some []) 0 (fun _ => some 19732) 19734 0 1 [] "JFC").fetched =
      some (19733, 19733) ∧
    (sync_symbol (fun _ => some []) 0 (fun _ => some 19733) 19734 0 1 [] "JFC").fetched =
      none := by
  constructor
  · have h := (c1_window_computation_and_skip (fun _ => some []) 0 (fun _ => some 19732)
      19734 0 1 [] "JFC").2.1 (by decide)
    rw [h]
    decide
  · exact ((c1_window_computation_and_skip (fun _ => some []) 0 (fun _ => some 19733)
      19734 0 1 [] "JFC").2.2 rfl (by decide)).1

/-- C2: for every fetched batch, even one holding several rows with the same
`(symbol, date)` key, the merge step leaves exactly one stored row for each key
of the batch, and the stored row is the deterministic max-close (first at ties)
representative of the batch's group for that key. -/
theorem c2_merge_dedup_unique (db batch : List PriceRow) (h : uniqueKeys db)
    (k : Int × String) (hk : k ∈ batch.map priceKey) :
    countKey (merge_step db batch) k = 1 ∧
    lookupKey (merge_step db batch) k =
      idxmaxRow (batch.filter (fun r => decide (priceKey r = k))) := by
  have hk' : k ∈ (dedup_group_max_close batch).map priceKey :=
    mem_keys_dedup_group.mpr hk
  rcases dedup_group_lookup hk with ⟨r, hidx, hkey, hmem⟩
  have hlen : 0 < (dedup_group_max_close batch).length :=
    List.length_pos.mpr (List.ne_nil_of_mem hmem)
  have hms : merge_step db batch =
      insert_price_data_to_db db (dedup_group_max_close batch) := by
    unfold merge_step
    rw [if_pos hlen]
  constructor
  · rw [hms]
    exact countKey_eq_one (uniqueKeys_insert_all h)
      (mem_keys_insert_all.mpr (Or.inr hk'))
  · rw [hms, hidx]
    have hlk := @lookup_insert_all_of_mem (dedup_group_max_close batch) db r
      (uniqueKeys_dedup_group batch) hmem
    rw [hkey] at hlk
    exact hlk

/-- C2 witness: the spec's example batch
`[(AAA, 2024-01-01, close 10), (AAA, 2024-01-01, close 12)]` merged into an empty
table: one stored row for the key, equal to the max-close representative. -/
theorem c2_merge_dedup_witness :
    countKey (merge_step []
        [⟨"AAA", 19723, 10, 10, 10, 10, 1⟩, ⟨"AAA", 19723, 12, 12, 12, 12, 1⟩])
      (19723, "AAA") = 1 ∧
    lookupKey (merge_step []
        [⟨"AAA", 19723, 10, 10, 10, 10, 1⟩, ⟨"AAA", 19723, 12, 12, 12, 12, 1⟩])
      (19723, "AAA") =
      idxmaxRow (List.filter (fun r => decide (priceKey r = (19723, "AAA")))
        [⟨"AAA", 19723, 10, 10, 10, 10, 1⟩, ⟨"AAA", 19723, 12, 12, 12, 12, 1⟩]) :=
  c2_merge_dedup_unique []
    [⟨"AAA", 19723, 10, 10, 10, 10, 1⟩, ⟨"AAA", 19723, 12, 12, 12, 12, 1⟩]
    (by simp [uniqueKeys]) (19723, "AAA") (by simp [priceKey])

/-- C5: upsert is last-write-wins on the natural key: merging row `r1` and then
row `r2` with the same `(symbol, date)` key leaves exactly one stored row under
that key, and that row is `r2` in every attribute (including the provenance
timestamp). -/
theorem c5_upsert_last_write_wins (db : List PriceRow) (h : uniqueKeys db)
    (r1 r2 : PriceRow) (hk : priceKey r1 = priceKey r2) :
    countKey (insert_price_data_to_db (insert_price_data_to_db db [r1]) [r2])
      (priceKey r1) = 1 ∧
    lookupKey (insert_price_data_to_db (insert_price_data_to_db db [r1]) [r2])
      (priceKey r1) = some r2 := by
  have h1 : insert_price_data_to_db db [r1] = upsert_price_row db r1 := rfl
  have h2 : insert_price_data_to_db (upsert_price_row db r1) [r2] =
      upsert_price_row (upsert_price_row db r1) r2 := rfl
  rw [h1, h2, hk]
  constructor
  · exact countKey_eq_one (uniqueKeys_upsert (uniqueKeys_upsert h r1) r2)
      (mem_keys_upsert.mpr (Or.inr rfl))
  · exact lookup_upsert_self _ r2

/-- C5 witness: the spec's example — close 10 then close 15 for the same key on
an empty table; one stored row, and it is the second row entirely. -/
theorem c5_upsert_witness :
    countKey (insert_price_data_to_db
        (insert_price_data_to_db [] [⟨"AAA", 19723, 10, 10, 10, 10, 1⟩])
        [⟨"AAA", 19723, 15, 15, 15, 15, 2⟩])
      (priceKey ⟨"AAA", 19723, 10, 10, 10, 10, 1⟩) = 1 ∧
    lookupKey (insert_price_data_to_db
        (insert_price_data_to_db [] [⟨"AAA", 19723, 10, 10, 10, 10, 1⟩])
        [⟨"AAA", 19723, 15, 15, 15, 15, 2⟩])
      (priceKey ⟨"AAA", 19723, 10, 10, 10, 10, 1⟩) =
      some ⟨"AAA", 19723, 15, 15, 15, 15, 2⟩ :=
  c5_upsert_last_write_wins [] (by simp [uniqueKeys])
    ⟨"AAA", 19723, 10, 10, 10, 10, 1⟩ ⟨"AAA", 19723, 15, 15, 15, 15, 2⟩ rfl

/-! ## `parallel_execute` lemmas -/

theorem run_queue_fst {α ε : Type} (func : α → Option ε) (args : List α) :
    (run_queue func args).1 = args := by
  induction args with
  | nil => rfl
  | cons a t ih => simp only [run_queue, ih]

theorem run_queue_snd {α ε : Type} (func : α → Option ε) (args : List α) :
    (run_queue func args).2 = args.filterMap func := by
  induction args with
  | nil => rfl
  | cons a t ih =>
    simp only [run_queue, List.filterMap_cons]
    cases func a <;> simp [ih]

theorem run_queue_eq {α ε : Type} (func : α → Option ε) (args : List α) :
    run_queue func args = (args, args.filterMap func) :=
  Prod.ext (run_queue_fst func args) (run_queue_snd func args)

theorem parallel_execute_spec {α ε : Type} (func : α → Option ε) (args : List α) :
    parallel_execute func args =
      (args, args.filterMap func,
        match args.filterMap func with
        | [] => Except.ok true
        | e :: _ => Except.error e) := by
  unfold parallel_execute
  rw [run_queue_eq]
  cases args.filterMap func <;> rfl

/-- C4: for every argument list and every assignment of exceptions, an exception
from one element is captured rather than raised immediately, every queued element
is still attempted (in order), and only after the queue is drained does the run
raise — exactly when at least one element failed — an aggregate failure carrying
one of the underlying per-element causes (the first). -/
theorem c4_parallel_execute_aggregate {α ε : Type} (func : α → Option ε)
    (args : List α) :
    (parallel_execute func args).1 = args ∧
    (parallel_execute func args).2.1 = args.filterMap func ∧
    ((parallel_execute func args).2.2 = Except.ok true ↔
      ∀ a ∈ args, func a = none) ∧
    (∀ e, (parallel_execute func args).2.2 = Except.error e →
      ∃ a ∈ args, func a = some e) ∧
    ((∃ a ∈ args, (func a).isSome) →
      ∃ e, (parallel_execute func args).2.2 = Except.error e) := by
  rw [parallel_execute_spec]
  refine ⟨rfl, rfl, ?_, ?_, ?_⟩
  · cases hf : args.filterMap func with
    | nil =>
      simp only [List.filterMap_eq_nil_iff] at hf
      simpa using hf
    | cons e t =>
      simp only []
      constructor
      · intro hc; exact absurd hc (by simp)
      · intro hall
        have : e ∈ args.filterMap func := by rw [hf]; exact List.mem_cons_self _ _
        rcases List.mem_filterMap.mp this with ⟨a, ha, hfa⟩
        rw [hall a ha] at hfa
        cases hfa
  · intro e he
    cases hf : args.filterMap func with
    | nil => rw [hf] at he; cases he
    | cons x t =>
      rw [hf] at he
      simp only [Except.error.injEq] at he
      have : e ∈ args.filterMap func := by
        rw [hf, he]; exact List.mem_cons_self _ _
      exact List.mem_filterMap.mp this
  · rintro ⟨a, ha, hfa⟩
    cases hfa' : func a with
    | none => rw [hfa'] at hfa; cases hfa
    | some e =>
      have hmem : e ∈ args.filterMap func := List.mem_filterMap.mpr ⟨a, ha, hfa'⟩
      cases hf : args.filterMap func with
      | nil => rw [hf] at hmem; cases hmem
      | cons x t => exact ⟨x, rfl⟩

/-- C4 witness: three queued arguments with the middle one failing — all three
attempted, the failure captured, and the aggregate error carries the cause. -/
theorem c4_parallel_execute_witness :
    (parallel_execute (fun n : Nat => if n = 1 then some "boom" else none)
      [0, 1, 2]).1 = [0, 1, 2] ∧
    ∃ a ∈ [0, 1, 2],
      (fun n : Nat => if n = 1 then some "boom" else none) a = some "boom" := by
  have h := c4_parallel_execute_aggregate
    (fun n : Nat => if n = 1 then some "boom" else none) [0, 1, 2]
  exact ⟨h.1, h.2.2.2.1 "boom" (by rfl)⟩

/-- C7: backfill is the same scheduling algorithm as incremental sync with
`lookback_days = 365*100`; for a symbol with a non-empty freshness state the
incremental window is `(latest+1, today-1)`, the window start is monotonically
earlier as `lookback_days` grows with the end unchanged, and every date of the
incremental window lies in the backfill window. -/
theorem c7_backfill_superset (history : String → Option (List ChartRow))
    (extracted_ts today_src : Int) (symbols : List String) (db0 : List PriceRow)
    (s : String) (d : Int) (hlat : latest_date db0 s = some d) :
    backfill_prices_run history extracted_ts today_src symbols db0 =
      sync_db_prices history extracted_ts today_src symbols (365 * 100) 1 db0 ∧
    compute_window (latest_date db0 s) 0 1 today_src = (d + 1, today_src - 1) ∧
    (∀ l1 l2 f t : Int, l1 ≤ l2 →
      (compute_window (latest_date db0 s) l2 f t).1 ≤
        (compute_window (latest_date db0 s) l1 f t).1 ∧
      (compute_window (latest_date db0 s) l2 f t).2 =
        (compute_window (latest_date db0 s) l1 f t).2) ∧
    (∀ x : Int,
      (compute_window (latest_date db0 s) 0 1 today_src).1 ≤ x ∧
        x ≤ (compute_window (latest_date db0 s) 0 1 today_src).2 →
      (compute_window (latest_date db0 s) (365 * 100) 1 today_src).1 ≤ x ∧
        x ≤ (compute_window (latest_date db0 s) (365 * 100) 1 today_src).2) := by
  refine ⟨rfl, ?_, ?_, ?_⟩
  · rw [hlat]
    simp only [compute_window, Option.getD_some, Prod.mk.injEq]
    refine ⟨by omega, ?_⟩
    try trivial
    try rfl
  · intro l1 l2 f t hl
    simp only [compute_window]
    refine ⟨by omega, ?_⟩
    try trivial
    try rfl
  · intro x hx
    simp only [compute_window] at hx ⊢
    omega

/-- C7 witness: a table with one stored row (`latest = 19733`): incremental
window `(19734, 19735)` and the backfill window covers it. -/
theorem c7_backfill_witness :
    compute_window (latest_date [⟨"AAA", 19733, 1, 1, 1, 1, 1⟩] "AAA") 0 1 19736 =
      (19734, 19735) ∧
    (compute_window (latest_date [⟨"AAA", 19733, 1, 1, 1, 1, 1⟩] "AAA")
        (365 * 100) 1 19736).1 ≤ 19734 := by
  have h := c7_backfill_superset (fun _ => none) 0 19736 [] [⟨"AAA", 19733, 1, 1, 1, 1, 1⟩]
    "AAA" 19733 (by rfl)
  refine ⟨h.2.1, ?_⟩
  have h4 := h.2.2.2 19734 (by rw [h.2.1]; constructor <;> decide)
  exact h4.1

/-- C9: the claim demands cleanup-then-rethrow around the stage-then-merge
sequence; the code instead propagates a non-`ComputeError` merge failure before
the `delete_files` line runs (no cleanup), and swallows a `polars.ComputeError`
entirely — evaluated here at both failing inputs. -/
theorem c9_merge_failure_cleanup :
    sync_table_merge_phase none (some TryExc.otherError) none =
      { merged := false, vacuumed := false, cleanup_ran := false,
        raised := some TryExc.otherError } ∧
    sync_table_merge_phase none (some TryExc.computeError) none =
      { merged := false, vacuumed := false, cleanup_ran := true, raised := none } := by
  constructor <;> rfl

/-! ## Registry lemmas -/

theorem map_symbol_upsert_company (db : List CompanyRow) (r : CompanyRow) :
    (upsert_company_row db r).map (fun x => x.symbol) =
      if db.any (fun x => decide (x.symbol = r.symbol)) then db.map (fun x => x.symbol)
      else db.map (fun x => x.symbol) ++ [r.symbol] := by
  unfold upsert_company_row
  split
  · rw [List.map_map]
    refine List.map_congr_left (fun x _ => ?_)
    simp only [Function.comp_apply]
    split
    · next hx => simp [hx]
    · rfl
  · simp

theorem mem_symbol_upsert_company {db : List CompanyRow} {r : CompanyRow} {s : String} :
    s ∈ (upsert_company_row db r).map (fun x => x.symbol) ↔
      s ∈ db.map (fun x => x.symbol) ∨ s = r.symbol := by
  rw [map_symbol_upsert_company]
  split
  · next h =>
    simp only [List.any_eq_true, decide_eq_true_eq] at h
    rcases h with ⟨x, hx, hxk⟩
    constructor
    · exact fun h1 => Or.inl h1
    · rintro (h1 | rfl)
      · exact h1
      · exact hxk ▸ List.mem_map_of_mem (fun x => x.symbol) hx
  · simp

theorem mem_symbol_companies_sync {src : List CompanyRow} {db : List CompanyRow}
    {s : String} :
    s ∈ (companies_sync_db db src).map (fun x => x.symbol) ↔
      s ∈ db.map (fun x => x.symbol) ∨ s ∈ src.map (fun x => x.symbol) := by
  induction src generalizing db with
  | nil => simp [companies_sync_db]
  | cons r t ih =>
    show s ∈ (companies_sync_db (upsert_company_row db r) t).map _ ↔ _
    rw [ih, mem_symbol_upsert_company]
    simp only [List.map_cons, List.mem_cons]
    tauto

theorem mem_select_symbols {db : List CompanyRow} {s : String} :
    s ∈ select_symbols_sorted db ↔ s ∈ db.map (fun x => x.symbol) := by
  unfold select_symbols_sorted
  exact List.mem_insertionSort _

theorem sorted_select_symbols (db : List CompanyRow) :
    List.Sorted (fun a b : String => a ≤ b) (select_symbols_sorted db) :=
  List.sorted_insertionSort _ _

/-- C8 (amended): after the registry sync, the symbol list handed to downstream
components is sorted, and equals as a set the union of the pre-existing registry
symbols and the source's symbols for the run (upserts never delete); it exactly
equals the source's symbol set whenever every pre-existing symbol also occurs in
the source — in particular on an empty registry. -/
theorem c8_registry_refresh_sorted_union (db source_data : List CompanyRow) :
    List.Sorted (fun a b : String => a ≤ b) (sync_registry db source_data).2 ∧
    (∀ s, s ∈ (sync_registry db source_data).2 ↔
      s ∈ db.map (fun x => x.symbol) ∨ s ∈ source_data.map (fun x => x.symbol)) ∧
    ((∀ s ∈ db.map (fun x => x.symbol), s ∈ source_data.map (fun x => x.symbol)) →
      ∀ s, s ∈ (sync_registry db source_data).2 ↔
        s ∈ source_data.map (fun x => x.symbol)) := by
  refine ⟨sorted_select_symbols _, fun s => ?_, fun hsub s => ?_⟩
  · show s ∈ select_symbols_sorted (companies_sync_db db source_data) ↔ _
    rw [mem_select_symbols, mem_symbol_companies_sync]
  · show s ∈ select_symbols_sorted (companies_sync_db db source_data) ↔ _
    rw [mem_select_symbols, mem_symbol_companies_sync]
    constructor
    · rintro (h | h)
      · exact hsub s h
      · exact h
    · exact Or.inr

/-- C8 counterexample: with a pre-existing registry row for "ZZZ" and a source
entity list holding only "AAA", the refreshed symbol list still contains "ZZZ",
which is not a source symbol — so it does not exactly equal the source's symbol
set for the run. -/
theorem c8_registry_counterexample :
    "ZZZ" ∈ (sync_registry [⟨"ZZZ", "z", "s", "ss", 0, 0⟩]
      [⟨"AAA", "a", "s", "ss", 0, 0⟩]).2 ∧
    "ZZZ" ∉ ([⟨"AAA", "a", "s", "ss", 0, 0⟩] : List CompanyRow).map
      (fun x => x.symbol) := by
  constructor
  · show "ZZZ" ∈ select_symbols_sorted (companies_sync_db _ _)
    exact mem_select_symbols.mpr (mem_symbol_companies_sync.mpr (Or.inl (by decide)))
  · decide

/-- C8 witness: on an empty registry the refreshed list equals exactly the
source's symbol set. -/
theorem c8_registry_witness :
    (∀ s ∈ ([] : List CompanyRow).map (fun x => x.symbol),
      s ∈ ([⟨"AAA", "a", "s", "ss", 0, 0⟩] : List CompanyRow).map (fun x => x.symbol)) ∧
    (∀ s, s ∈ (sync_registry [] [⟨"AAA", "a", "s", "ss", 0, 0⟩]).2 ↔
      s ∈ ([⟨"AAA", "a", "s", "ss", 0, 0⟩] : List CompanyRow).map (fun x => x.symbol)) :=
  ⟨by simp,
    (c8_registry_refresh_sorted_union [] [⟨"AAA", "a", "s", "ss", 0, 0⟩]).2.2 (by simp)⟩

/-- C10 (amended): every `Except.ok` result of `get_stock_data` already holds at
most one row per date (the first-ranked row of the windowed series, tagged with
the requested symbol and the run's extraction timestamp), so the scheduler's
group-by-`(date,symbol)`-max-close deduplication keeps exactly the same rows — a
permutation (it re-sorts by group key), the identity as a set — and the effective
duplicate-resolution policy is first-row-at-source, not highest close. -/
theorem c10_client_dedup_first_policy
    (history : String → Option (List ChartRow)) (extracted_ts : Int) (symbol : String)
    (start_date end_date : Int) (l : List ChartRow)
    (hist : history symbol = some l) (out : List PriceRow)
    (hout : get_stock_data history extracted_ts symbol start_date end_date =
      Except.ok out) :
    (out.map (fun r => r.date)).Nodup ∧
    List.Perm (dedup_group_max_close out) out ∧
    (∀ r ∈ out,
      (l.filter (fun x => decide (start_date ≤ x.date) && decide (x.date ≤ end_date))).find?
          (fun y => decide (y.date = r.date)) =
        some (⟨r.date, r.open_, r.high, r.low, r.close⟩ : ChartRow) ∧
      r.symbol = symbol ∧ r.extracted_at = extracted_ts) := by
  have hout' : out =
      (keepFirstByDate [] (l.filter
        (fun x => decide (start_date ≤ x.date) && decide (x.date ≤ end_date)))).map
        (chartToPrice symbol extracted_ts) := by
    unfold get_stock_data at hout
    rw [hist] at hout
    simpa using hout.symm
  have hdates : out.map (fun r => r.date) =
      (keepFirstByDate [] (l.filter
        (fun x => decide (start_date ≤ x.date) && decide (x.date ≤ end_date)))).map
        (fun c => c.date) := by
    rw [hout', List.map_map]
    rfl
  have hnd : (out.map (fun r => r.date)).Nodup := by
    rw [hdates]
    exact nodup_dates_keepFirst
  refine ⟨hnd, ?_, ?_⟩
  · have hkeys : uniqueKeys out := by
      have h1 : ((out.map priceKey).map Prod.fst).Nodup := by
        rw [List.map_map]
        exact hnd
      exact List.Nodup.of_map Prod.fst h1
    exact dedup_group_perm hkeys
  · intro r hr
    rw [hout'] at hr
    rcases List.mem_map.mp hr with ⟨c, hc, rfl⟩
    have hfind := keepFirst_find? hc
    exact ⟨hfind, rfl, rfl⟩

/-- C10 counterexample: on a two-row series delivered out of date order, the
scheduler's dedup re-sorts by `(date, symbol)` and so is not the identity
function on the `get_stock_data` output as a list (it is only a permutation). -/
theorem c10_counterexample :
    get_stock_data (fun _ => some [⟨2, 0, 0, 0, 5⟩, ⟨1, 0, 0, 0, 6⟩]) 7 "AAA" 0 10 =
      Except.ok [⟨"AAA", 2, 0, 0, 0, 5, 7⟩, ⟨"AAA", 1, 0, 0, 0, 6, 7⟩] ∧
    dedup_group_max_close [⟨"AAA", 2, 0, 0, 0, 5, 7⟩, ⟨"AAA", 1, 0, 0, 0, 6, 7⟩] =
      [⟨"AAA", 1, 0, 0, 0, 6, 7⟩, ⟨"AAA", 2, 0, 0, 0, 5, 7⟩] ∧
    ([⟨"AAA", 1, 0, 0, 0, 6, 7⟩, ⟨"AAA", 2, 0, 0, 0, 5, 7⟩] : List PriceRow) ≠
      [⟨"AAA", 2, 0, 0, 0, 5, 7⟩, ⟨"AAA", 1, 0, 0, 0, 6, 7⟩] := by
  refine ⟨by rfl, by decide, by decide⟩

/-- C10 witness: a series with a duplicated date `[close 10, close 12]` — the
client keeps the first row (close 10, not the higher 12), the output dates are
distinct, and the scheduler dedup only permutes the output. -/
theorem c10_first_policy_witness :
    ((([⟨"AAA", 1, 0, 0, 0, 10, 7⟩, ⟨"AAA", 2, 0, 0, 0, 5, 7⟩] : List PriceRow).map
      (fun r => r.date)).Nodup) ∧
    List.Perm
      (dedup_group_max_close [⟨"AAA", 1, 0, 0, 0, 10, 7⟩, ⟨"AAA", 2, 0, 0, 0, 5, 7⟩])
      [⟨"AAA", 1, 0, 0, 0, 10, 7⟩, ⟨"AAA", 2, 0, 0, 0, 5, 7⟩] ∧
    (List.filter (fun x => decide ((0 : Int) ≤ x.date) && decide (x.date ≤ 10))
        [⟨1, 0, 0, 0, 10⟩, ⟨1, 0, 0, 0, 12⟩, ⟨2, 0, 0, 0, 5⟩]).find?
      (fun y => decide (y.date = 1)) = some (⟨1, 0, 0, 0, 10⟩ : ChartRow) := by
  have h := c10_client_dedup_first_policy
    (fun _ => some [⟨1, 0, 0, 0, 10⟩, ⟨1, 0, 0, 0, 12⟩, ⟨2, 0, 0, 0, 5⟩]) 7 "AAA" 0 10
    [⟨1, 0, 0, 0, 10⟩, ⟨1, 0, 0, 0, 12⟩, ⟨2, 0, 0, 0, 5⟩] rfl
    [⟨"AAA", 1, 0, 0, 0, 10, 7⟩, ⟨"AAA", 2, 0, 0, 0, 5, 7⟩] (by rfl)
  refine ⟨h.1, h.2.1, ?_⟩
  exact (h.2.2 ⟨"AAA", 1, 0, 0, 0, 10, 7⟩ (by decide)).1

/-! ## Case lemmas for `sync_symbol` and `get_stock_data` -/

theorem get_stock_data_some (history : String → Option (List ChartRow))
    (extracted_ts : Int) (s : String) (a b : Int) {l : List ChartRow}
    (hh : history s = some l) :
    get_stock_data history extracted_ts s a b = Except.ok
      ((keepFirstByDate []
        (l.filter (fun y => decide (a ≤ y.date) && decide (y.date ≤ b)))).map
        (chartToPrice s extracted_ts)) := by
  unfold get_stock_data
  rw [hh]

theorem get_stock_data_empty (history : String → Option (List ChartRow))
    (extracted_ts : Int) (s : String) (a b : Int) {l : List ChartRow}
    (hh : history s = some l)
    (hem : ∀ x ∈ l, ¬ (a ≤ x.date ∧ x.date ≤ b)) :
    get_stock_data history extracted_ts s a b = Except.ok [] := by
  rw [get_stock_data_some history extracted_ts s a b hh]
  have hnil : l.filter (fun y => decide (a ≤ y.date) && decide (y.date ≤ b)) = [] := by
    refine List.filter_eq_nil_iff.mpr (fun x hx => ?_)
    simpa using hem x hx
  rw [hnil]
  rfl

theorem sync_symbol_db_skip (history : String → Option (List ChartRow))
    (extracted_ts : Int) (ld : String → Option Int) (today_src : Int)
    (lookback_days freshness_days : Int) (db : List PriceRow) (s : String)
    (hsk : lookback_days = 0 ∧ (ld s).getD epochDate = today_src - freshness_days) :
    (sync_symbol history extracted_ts ld today_src lookback_days freshness_days db s).db
      = db := by
  simp only [sync_symbol, compute_window]
  rw [if_pos hsk]

theorem sync_symbol_db_unknown (history : String → Option (List ChartRow))
    (extracted_ts : Int) (ld : String → Option Int) (today_src : Int)
    (lookback_days freshness_days : Int) (db : List PriceRow) (s : String)
    (hh : history s = none) :
    (sync_symbol history extracted_ts ld today_src lookback_days freshness_days db s).db
      = db := by
  simp only [sync_symbol, compute_window]
  split
  · rfl
  · simp only [get_stock_data, hh]

theorem sync_symbol_db_fetch (history : String → Option (List ChartRow))
    (extracted_ts : Int) (ld : String → Option Int) (today_src : Int)
    (lookback_days freshness_days : Int) (db : List PriceRow) (s : String)
    (hns : ¬ (lookback_days = 0 ∧
      (ld s).getD epochDate = today_src - freshness_days))
    {out : List PriceRow}
    (hgs : get_stock_data history extracted_ts s
      ((ld s).getD epochDate + (1 - lookback_days)) (today_src - freshness_days) =
      Except.ok out) :
    (sync_symbol history extracted_ts ld today_src lookback_days freshness_days db s).db
      = merge_step db out := by
  simp only [sync_symbol, compute_window]
  rw [if_neg hns, hgs]

theorem sync_symbol_warned_known (history : String → Option (List ChartRow))
    (extracted_ts : Int) (ld : String → Option Int) (today_src : Int)
    (lookback_days freshness_days : Int) (db : List PriceRow) (s : String)
    {l : List ChartRow} (hh : history s = some l) :
    (sync_symbol history extracted_ts ld today_src lookback_days freshness_days db
      s).warned = false := by
  simp only [sync_symbol, compute_window]
  split
  · rfl
  · simp only [get_stock_data, hh]

theorem sync_symbol_warned_unknown (history : String → Option (List ChartRow))
    (extracted_ts : Int) (ld : String → Option Int) (today_src : Int)
    (lookback_days freshness_days : Int) (db : List PriceRow) (s : String)
    (hh : history s = none)
    (hns : ¬ (lookback_days = 0 ∧
      (ld s).getD epochDate = today_src - freshness_days)) :
    (sync_symbol history extracted_ts ld today_src lookback_days freshness_days db
      s).warned = true := by
  simp only [sync_symbol, compute_window]
  rw [if_neg hns]
  simp only [get_stock_data, hh]

/-! ## Key-set lemmas for the merge and fetch output -/

theorem mem_keys_merge_elim {db pdf : List PriceRow} {k : Int × String}
    (hk : k ∈ (merge_step db pdf).map priceKey) :
    k ∈ db.map priceKey ∨ k ∈ pdf.map priceKey := by
  simp only [merge_step] at hk
  split at hk
  · rcases mem_keys_insert_all.mp hk with h | h
    · exact Or.inl h
    · exact Or.inr (mem_keys_dedup_group.mp h)
  · exact Or.inl hk

theorem mem_keys_merge_left {db pdf : List PriceRow} {k : Int × String}
    (hk : k ∈ db.map priceKey) : k ∈ (merge_step db pdf).map priceKey := by
  simp only [merge_step]
  split
  · exact mem_keys_insert_all.mpr (Or.inl hk)
  · exact hk

theorem mem_keys_merge_right {db pdf : List PriceRow} {k : Int × String}
    (hk : k ∈ pdf.map priceKey) : k ∈ (merge_step db pdf).map priceKey := by
  have hk' := mem_keys_dedup_group.mpr hk
  simp only [merge_step]
  split
  · exact mem_keys_insert_all.mpr (Or.inr hk')
  · next hlen =>
    exfalso
    cases hd : dedup_group_max_close pdf with
    | nil => rw [hd] at hk'; simp at hk'
    | cons a t => rw [hd] at hlen; simp at hlen

theorem fetch_output_keys_bound {s : String} {extracted_ts a b : Int}
    {l : List ChartRow} {k : Int × String}
    (hk : k ∈ ((keepFirstByDate []
      (l.filter (fun y => decide (a ≤ y.date) && decide (y.date ≤ b)))).map
      (chartToPrice s extracted_ts)).map priceKey) :
    k.2 = s ∧ a ≤ k.1 ∧ k.1 ≤ b := by
  rw [List.map_map] at hk
  rcases List.mem_map.mp hk with ⟨c, hc, hck⟩
  have hcf := keepFirst_subset hc
  have hbounds : a ≤ c.date ∧ c.date ≤ b := by
    simpa using (List.mem_filter.mp hcf).2
  have hcomp : (priceKey ∘ chartToPrice s extracted_ts) c = (c.date, s) := rfl
  rw [hcomp] at hck
  subst hck
  exact ⟨rfl, hbounds.1, hbounds.2⟩

theorem mem_keys_fetch_output {s : String} {extracted_ts a b : Int}
    {l : List ChartRow} {x : ChartRow} (hx : x ∈ l) (hxa : a ≤ x.date)
    (hxb : x.date ≤ b) :
    (x.date, s) ∈ ((keepFirstByDate []
      (l.filter (fun y => decide (a ≤ y.date) && decide (y.date ≤ b)))).map
      (chartToPrice s extracted_ts)).map priceKey := by
  have hxf : x ∈ l.filter (fun y => decide (a ≤ y.date) && decide (y.date ≤ b)) :=
    List.mem_filter.mpr ⟨hx, by simp [hxa, hxb]⟩
  have hdate : x.date ∈ (l.filter
      (fun y => decide (a ≤ y.date) && decide (y.date ≤ b))).map (fun r => r.date) :=
    List.mem_map_of_mem _ hxf
  have h2 : x.date ∈ (keepFirstByDate []
      (l.filter (fun y => decide (a ≤ y.date) && decide (y.date ≤ b)))).map
      (fun r => r.date) :=
    date_mem_keepFirst.mpr ⟨by simp, hdate⟩
  rcases List.mem_map.mp h2 with ⟨c, hc, hcd⟩
  refine mem_keys_iff.mpr ⟨chartToPrice s extracted_ts c, List.mem_map_of_mem _ hc, ?_⟩
  simp [priceKey, chartToPrice, hcd]

theorem le_latest_of_mem {db : List PriceRow} {s : String} {d : Int}
    (h : (d, s) ∈ db.map priceKey) :
    d ≤ (latest_date db s).getD epochDate := by
  rcases latest_date_eq_some_of_mem h with ⟨m, hm, hdm⟩
  rw [hm]
  exact hdm

theorem mem_keys_sync_symbol (history : String → Option (List ChartRow))
    (extracted_ts : Int) (ld : String → Option Int) (today_src : Int)
    (lookback_days freshness_days : Int) (db : List PriceRow) (s : String)
    {k : Int × String} (hk : k ∈ db.map priceKey) :
    k ∈ ((sync_symbol history extracted_ts ld today_src lookback_days freshness_days
      db s).db).map priceKey := by
  by_cases hsk : lookback_days = 0 ∧ (ld s).getD epochDate = today_src - freshness_days
  · rw [sync_symbol_db_skip history extracted_ts ld today_src lookback_days
      freshness_days db s hsk]
    exact hk
  · cases hh : history s with
    | none =>
      rw [sync_symbol_db_unknown history extracted_ts ld today_src lookback_days
        freshness_days db s hh]
      exact hk
    | some l =>
      rw [sync_symbol_db_fetch history extracted_ts ld today_src lookback_days
        freshness_days db s hsk (get_stock_data_some history extracted_ts s _ _ hh)]
      exact mem_keys_merge_left hk

theorem mem_keys_sync_symbol_elim (history : String → Option (List ChartRow))
    (extracted_ts : Int) (ld : String → Option Int) (today_src : Int)
    (lookback_days freshness_days : Int) (db : List PriceRow) (s : String)
    {k : Int × String}
    (hk : k ∈ ((sync_symbol history extracted_ts ld today_src lookback_days
      freshness_days db s).db).map priceKey) :
    k ∈ db.map priceKey ∨
      (k.2 = s ∧ (ld s).getD epochDate + (1 - lookback_days) ≤ k.1 ∧
        k.1 ≤ today_src - freshness_days) := by
  by_cases hsk : lookback_days = 0 ∧ (ld s).getD epochDate = today_src - freshness_days
  · rw [sync_symbol_db_skip history extracted_ts ld today_src lookback_days
      freshness_days db s hsk] at hk
    exact Or.inl hk
  · cases hh : history s with
    | none =>
      rw [sync_symbol_db_unknown history extracted_ts ld today_src lookback_days
        freshness_days db s hh] at hk
      exact Or.inl hk
    | some l =>
      rw [sync_symbol_db_fetch history extracted_ts ld today_src lookback_days
        freshness_days db s hsk (get_stock_data_some history extracted_ts s _ _ hh)] at hk
      rcases mem_keys_merge_elim hk with h | h
      · exact Or.inl h
      · exact Or.inr (fetch_output_keys_bound h)

/-! ## Run-level invariants for the incremental sync -/

/-- Coverage of a processed symbol: every source row of `s` dated at most the
run's target end either is no newer than the symbol's pre-run latest date, or its
key is already stored in the current table. -/
def covered (history : String → Option (List ChartRow)) (db0 : List PriceRow)
    (target_end : Int) (s : String) (db : List PriceRow) : Prop :=
  ∀ l, history s = some l → ∀ x ∈ l, x.date ≤ target_end →
    x.date ≤ (latest_date db0 s).getD epochDate ∨ (x.date, s) ∈ db.map priceKey

/-- Key-set discipline of the run (with `lookback_days = 0`): the table keeps all
pre-run keys, and every key it holds is either a pre-run key or lies in the
symbol's fetch window. -/
def keys_between (db0 : List PriceRow) (target_end : Int) (db : List PriceRow) : Prop :=
  (∀ k : Int × String, k ∈ db0.map priceKey → k ∈ db.map priceKey) ∧
  (∀ k : Int × String, k ∈ db.map priceKey → k ∈ db0.map priceKey ∨
    ((latest_date db0 k.2).getD epochDate + 1 ≤ k.1 ∧ k.1 ≤ target_end))

theorem keys_between_refl (db0 : List PriceRow) (target_end : Int) :
    keys_between db0 target_end db0 :=
  ⟨fun _ h => h, fun _ h => Or.inl h⟩

theorem latest_le_latest {db0 db1 : List PriceRow} {target_end : Int}
    (h : keys_between db0 target_end db1) (s : String) :
    (latest_date db0 s).getD epochDate ≤ (latest_date db1 s).getD epochDate := by
  cases h0 : latest_date db0 s with
  | none =>
    cases h1 : latest_date db1 s with
    | none => simp
    | some m =>
      have hmem := mem_of_latest_date_eq_some h1
      rcases h.2 _ hmem with hc | hc
      · rcases latest_date_eq_some_of_mem hc with ⟨m0, hm0, _⟩
        rw [h0] at hm0
        cases hm0
      · rw [h0] at hc
        simp only [Option.getD_none, Option.getD_some]
        simp only [Option.getD_none] at hc
        omega
  | some m0 =>
    have hmem0 := mem_of_latest_date_eq_some h0
    have hmem1 := h.1 _ hmem0
    rcases latest_date_eq_some_of_mem hmem1 with ⟨m1, hm1, hle⟩
    rw [hm1]
    simpa using hle

theorem covered_mono {history : String → Option (List ChartRow)} {db0 : List PriceRow}
    {target_end : Int} {s : String} {db db' : List PriceRow}
    (hsub : ∀ k : Int × String, k ∈ db.map priceKey → k ∈ db'.map priceKey)
    (h : covered history db0 target_end s db) : covered history db0 target_end s db' := by
  intro l hh x hx hxe
  rcases h l hh x hx hxe with h1 | h1
  · exact Or.inl h1
  · exact Or.inr (hsub _ h1)

/-- Processing a symbol with the pre-run freshness map covers that symbol. -/
theorem sync_symbol_covers (history : String → Option (List ChartRow))
    (extracted_ts today_src : Int) (db0 db : List PriceRow) (s : String) :
    covered history db0 (today_src - 1) s
      (sync_symbol history extracted_ts (fun s2 => latest_date db0 s2) today_src 0 1
        db s).db := by
  intro l hh x hx hxE
  by_cases hle : x.date ≤ (latest_date db0 s).getD epochDate
  · exact Or.inl hle
  · right
    by_cases hsk : (0 : Int) = 0 ∧
        ((fun s2 => latest_date db0 s2) s).getD epochDate = today_src - 1
    · exfalso
      have h2 : (latest_date db0 s).getD epochDate = today_src - 1 := hsk.2
      omega
    · rw [sync_symbol_db_fetch history extracted_ts (fun s2 => latest_date db0 s2)
        today_src 0 1 db s hsk
        (get_stock_data_some history extracted_ts s _ _ hh)]
      apply mem_keys_merge_right
      have hxa : (latest_date db0 s).getD epochDate + (1 - 0) ≤ x.date := by omega
      exact mem_keys_fetch_output hx hxa hxE

/-- Processing any symbol preserves the key-set discipline. -/
theorem sync_symbol_keys_between (history : String → Option (List ChartRow))
    (extracted_ts today_src : Int) (db0 db : List PriceRow) (s : String)
    (h : keys_between db0 (today_src - 1) db) :
    keys_between db0 (today_src - 1)
      (sync_symbol history extracted_ts (fun s2 => latest_date db0 s2) today_src 0 1
        db s).db := by
  constructor
  · intro k hk
    exact mem_keys_sync_symbol history extracted_ts _ today_src 0 1 db s (h.1 k hk)
  · intro k hk
    rcases mem_keys_sync_symbol_elim history extracted_ts _ today_src 0 1 db s hk with
      h1 | h1
    · exact h.2 k h1
    · right
      rcases h1 with ⟨hks, hk1, hk2⟩
      rw [hks]
      have hk1' : (latest_date db0 s).getD epochDate + (1 - 0) ≤ k.1 := hk1
      constructor <;> omega

/-- The fold of `sync_db` (with `lookback_days = 0`, `freshness_days = 1`)
preserves the key-set discipline, preserves coverage, and covers every symbol of
the drained queue. -/
theorem sync_fold_post (history : String → Option (List ChartRow))
    (extracted_ts today_src : Int) (db0 : List PriceRow) :
    ∀ (syms : List String) (st : List PriceRow × List String),
      keys_between db0 (today_src - 1) st.1 →
      keys_between db0 (today_src - 1)
        (syms.foldl (sync_db_step history extracted_ts
          (fun s => latest_date db0 s) today_src 0 1) st).1 ∧
      (∀ s2, covered history db0 (today_src - 1) s2 st.1 →
        covered history db0 (today_src - 1) s2
          (syms.foldl (sync_db_step history extracted_ts
            (fun s => latest_date db0 s) today_src 0 1) st).1) ∧
      (∀ s ∈ syms, covered history db0 (today_src - 1) s
        (syms.foldl (sync_db_step history extracted_ts
          (fun s => latest_date db0 s) today_src 0 1) st).1) := by
  intro syms
  induction syms with
  | nil =>
    intro st h
    exact ⟨h, fun _ hc => hc, by simp⟩
  | cons s rest ih =>
    intro st h
    simp only [List.foldl_cons]
    have hst' : (sync_db_step history extracted_ts (fun s2 => latest_date db0 s2)
        today_src 0 1 st s).1 =
        (sync_symbol history extracted_ts (fun s2 => latest_date db0 s2) today_src 0 1
          st.1 s).db := rfl
    have hkeys := sync_symbol_keys_between history extracted_ts today_src db0 st.1 s h
    have hcov := sync_symbol_covers history extracted_ts today_src db0 st.1 s
    have hmono : ∀ k : Int × String, k ∈ st.1.map priceKey →
        k ∈ ((sync_symbol history extracted_ts (fun s2 => latest_date db0 s2) today_src
          0 1 st.1 s).db).map priceKey :=
      fun k hk => mem_keys_sync_symbol history extracted_ts _ today_src 0 1 st.1 s hk
    have hrec := ih (sync_db_step history extracted_ts (fun s2 => latest_date db0 s2)
      today_src 0 1 st s) (by rw [hst']; exact hkeys)
    refine ⟨hrec.1, ?_, ?_⟩
    · intro s2 hc
      refine hrec.2.1 s2 ?_
      rw [hst']
      exact covered_mono hmono hc
    · intro s2 hs2
      rcases List.mem_cons.mp hs2 with rfl | hs2r
      · refine hrec.2.1 s2 ?_
        rw [hst']
        exact hcov
      · exact hrec.2.2 s2 hs2r

/-- Post-state of one incremental sync run: key discipline plus coverage of every
synced symbol. -/
theorem sync_prices_run_post (history : String → Option (List ChartRow))
    (extracted_ts today_src : Int) (symbols : List String) (db0 : List PriceRow) :
    keys_between db0 (today_src - 1)
      (sync_prices_run history extracted_ts today_src symbols db0).1 ∧
    ∀ s ∈ symbols, covered history db0 (today_src - 1) s
      (sync_prices_run history extracted_ts today_src symbols db0).1 := by
  have h := sync_fold_post history extracted_ts today_src db0 symbols (db0, [])
    (keys_between_refl db0 (today_src - 1))
  exact ⟨h.1, h.2.2⟩

/-- With the refreshed freshness map, a covered symbol is a no-op for the table:
it either skips, fails as unknown, or fetches an empty window. -/
theorem sync_symbol_noop (history : String → Option (List ChartRow))
    (extracted_ts today_src : Int) (db0 db1 : List PriceRow) (s : String)
    (hinv : keys_between db0 (today_src - 1) db1)
    (hcov : covered history db0 (today_src - 1) s db1) :
    (sync_symbol history extracted_ts (fun s2 => latest_date db1 s2) today_src 0 1
      db1 s).db = db1 := by
  by_cases hsk : (0 : Int) = 0 ∧
      ((fun s2 => latest_date db1 s2) s).getD epochDate = today_src - 1
  · exact sync_symbol_db_skip history extracted_ts _ today_src 0 1 db1 s hsk
  · cases hh : history s with
    | none => exact sync_symbol_db_unknown history extracted_ts _ today_src 0 1 db1 s hh
    | some l =>
      have hem : ∀ x ∈ l,
          ¬ (((fun s2 => latest_date db1 s2) s).getD epochDate + (1 - 0) ≤ x.date ∧
            x.date ≤ today_src - 1) := by
        intro x hx hc
        have hc' : (latest_date db1 s).getD epochDate + (1 - 0) ≤ x.date ∧
            x.date ≤ today_src - 1 := hc
        rcases hcov l hh x hx hc'.2 with h1 | h1
        · have h2 := latest_le_latest hinv s
          have hc1 := hc'.1
          omega
        · have h2 := le_latest_of_mem h1
          have hc1 := hc'.1
          omega
      rw [sync_symbol_db_fetch history extracted_ts _ today_src 0 1 db1 s hsk
        (get_stock_data_empty history extracted_ts s _ _ hh
          (fun x hx hc => hem x hx (by simpa using hc)))]
      simp only [merge_step, dedup_group_nil]
      rfl

/-- A queue of covered symbols leaves the synced table untouched. -/
theorem sync_fold_noop (history : String → Option (List ChartRow))
    (extracted_ts today_src : Int) (db0 db1 : List PriceRow)
    (hinv : keys_between db0 (today_src - 1) db1) :
    ∀ (syms : List String),
      (∀ s ∈ syms, covered history db0 (today_src - 1) s db1) →
      ∀ w : List String,
        (syms.foldl (sync_db_step history extracted_ts
          (fun s => latest_date db1 s) today_src 0 1) (db1, w)).1 = db1 := by
  intro syms
  induction syms with
  | nil => intro _ w; rfl
  | cons s rest ih =>
    intro hcov w
    simp only [List.foldl_cons]
    have hnoop := sync_symbol_noop history extracted_ts today_src db0 db1 s hinv
      (hcov s (List.mem_cons_self _ _))
    have hstep : sync_db_step history extracted_ts (fun s2 => latest_date db1 s2)
        today_src 0 1 (db1, w) s =
        (db1, if (sync_symbol history extracted_ts (fun s2 => latest_date db1 s2)
          today_src 0 1 db1 s).warned then w ++ [s] else w) := by
      simp only [sync_db_step, hnoop]
    rw [hstep]
    exact ih (fun s2 hs2 => hcov s2 (List.mem_cons_of_mem _ hs2)) _

/-- C6: running the incremental sync twice in succession — same source series,
same trading day — produces no net change to the stored price rows: the second
run leaves the price table exactly as the first run left it (even with a fresh
extraction timestamp for the second run). -/
theorem c6_sync_idempotent (history : String → Option (List ChartRow))
    (ts1 ts2 today_src : Int) (symbols : List String) (db0 : List PriceRow) :
    (sync_prices_run history ts2 today_src symbols
      (sync_prices_run history ts1 today_src symbols db0).1).1 =
      (sync_prices_run history ts1 today_src symbols db0).1 := by
  have hpost := sync_prices_run_post history ts1 today_src symbols db0
  exact sync_fold_noop history ts2 today_src db0
    (sync_prices_run history ts1 today_src symbols db0).1 hpost.1 symbols hpost.2 []

/-- C3: for the symbol list `[AAA, BAD, CCC]` where fetching `BAD` hits the
unknown-entity condition (and `BAD` is not on the skip path) while `AAA` and `CCC`
resolve, the sync still stores exactly the results of `AAA` and `CCC` — the final
table equals the one of the run without `BAD` — and reports exactly one failed
symbol (the warning list is `[BAD]`); no exception escapes to `parallel_execute`,
so no aggregate error is raised. -/
theorem c3_per_symbol_isolation
    (history : String → Option (List ChartRow)) (extracted_ts today_src : Int)
    (db0 : List PriceRow) (la lc : List ChartRow)
    (hA : history "AAA" = some la) (hB : history "BAD" = none)
    (hC : history "CCC" = some lc)
    (hBns : ¬ ((latest_date db0 "BAD").getD epochDate = today_src - 1)) :
    (sync_prices_run history extracted_ts today_src ["AAA", "BAD", "CCC"] db0).1 =
      (sync_prices_run history extracted_ts today_src ["AAA", "CCC"] db0).1 ∧
    (sync_prices_run history extracted_ts today_src ["AAA", "BAD", "CCC"] db0).2 =
      ["BAD"] := by
  have hBns' : ¬ ((0 : Int) = 0 ∧
      ((fun s => latest_date db0 s) "BAD").getD epochDate = today_src - 1) := by
    intro hc
    exact hBns hc.2
  have hwA := sync_symbol_warned_known history extracted_ts
    (fun s => latest_date db0 s) today_src 0 1 db0 "AAA" hA
  have hdbB := sync_symbol_db_unknown history extracted_ts
    (fun s => latest_date db0 s) today_src 0 1
    (sync_symbol history extracted_ts (fun s => latest_date db0 s) today_src 0 1 db0
      "AAA").db "BAD" hB
  have hwB := sync_symbol_warned_unknown history extracted_ts
    (fun s => latest_date db0 s) today_src 0 1
    (sync_symbol history extracted_ts (fun s => latest_date db0 s) today_src 0 1 db0
      "AAA").db "BAD" hB hBns'
  have hwC := fun d => sync_symbol_warned_known history extracted_ts
    (fun s => latest_date db0 s) today_src 0 1 d "CCC" hC
  simp only [sync_prices_run, sync_db_prices, List.foldl_cons, List.foldl_nil,
    sync_db_step, hwA, hwB, hdbB, hwC, if_true, if_false, Bool.false_eq_true]
  constructor <;> first
  | rfl
  | trivial

/-- C3 witness: a concrete three-symbol run with `BAD` unknown — the stored rows
are exactly those of the run without `BAD` (the `AAA`/`CCC` results) and the
warning list is `[BAD]`. -/
theorem c3_per_symbol_isolation_witness :
    (sync_prices_run
      (fun s => if s = "AAA" then some [⟨5, 1, 1, 1, 1⟩]
        else if s = "CCC" then some [⟨6, 2, 2, 2, 2⟩] else none)
      3 10 ["AAA", "BAD", "CCC"] []).1 =
      (sync_prices_run
        (fun s => if s = "AAA" then some [⟨5, 1, 1, 1, 1⟩]
          else if s = "CCC" then some [⟨6, 2, 2, 2, 2⟩] else none)
        3 10 ["AAA", "CCC"] []).1 ∧
    (sync_prices_run
      (fun s => if s = "AAA" then some [⟨5, 1, 1, 1, 1⟩]
        else if s = "CCC" then some [⟨6, 2, 2, 2, 2⟩] else none)
      3 10 ["AAA", "BAD", "CCC"] []).2 = ["BAD"] :=
  c3_per_symbol_isolation
    (fun s => if s = "AAA" then some [⟨5, 1, 1, 1, 1⟩]
      else if s = "CCC" then some [⟨6, 2, 2, 2, 2⟩] else none)
    3 10 [] [⟨5, 1, 1, 1, 1⟩] [⟨6, 2, 2, 2, 2⟩] (by rfl) (by rfl) (by rfl) (by decide)

end PseEtl
